/-
Verification of the log-analyzer pipeline (two Go programs:
`log_analyzer_1h.go` and the summary-enhancer program).

The development shallowly embeds the relevant parts of the source:
  * log lines are modelled as `List Char` (Go `len` on the strings involved
    counts bytes; all string data the claims touch is compared length-wise,
    so a character-list model is faithful),
  * Go `float64` arithmetic in the chunk-shrink step is modelled exactly:
    an IEEE-754 binary64 value in the positive normal range is a dyadic
    rational `m * 2^e` with `2^52 ≤ m < 2^53`, and each Go operation rounds
    the exact rational result to the nearest such value, ties to even
    (the values the analyzer rounds all lie well inside the normal range,
    so overflow and subnormals never arise); the computation is carried out
    on natural numbers so that the kernel can evaluate it, and `Dy.toQ`
    gives its rational semantics for the error analysis,
  * fallible steps (the integer division by zero that panics on an empty
    filtered sequence) return `Option`,
  * the HTTP completion call is an oracle parameter: a function giving the
    per-chunk result, so theorems quantify over every possible response,
  * `time.Parse(time.RFC3339, _)` is an opaque stdlib parser, modelled as a
    parameter `parse : List Char → Option ℤ` returning the parsed instant.
-/
import Mathlib

set_option maxRecDepth 8000

namespace LogAnalyzer

/-! ### Constants (source lines 15-22) -/

def maxTokensPerChunk : Nat := 1500

def maxCharsPerSummary : Nat := 20000

/-! ### Exact model of IEEE-754 binary64 rounding

`natLog2` is a fuel-based (hence kernel-computable) base-2 logarithm.
`froundFrac p q` rounds the positive fraction `p / q` to the nearest
binary64 value (round to nearest, ties to even), returned as a dyadic
`Dy`.  `fdivD` and `fmulND` are the two Go `float64` operations the
shrink step performs, and `dyFloor` is Go's `int(_)` truncation (the
values truncated are nonnegative). -/

def natLog2Aux : Nat → Nat → Nat
  | 0, _ => 0
  | fuel + 1, n => if n ≤ 1 then 0 else natLog2Aux fuel (n / 2) + 1

def natLog2 (n : Nat) : Nat := natLog2Aux n n

/-- A nonnegative dyadic rational `m * 2^e`. -/
structure Dy where
  m : Nat
  e : Int
  deriving DecidableEq

/-- Rational value of a dyadic. -/
def Dy.toQ (d : Dy) : ℚ := (d.m : ℚ) * (2 : ℚ) ^ d.e

/-- Decides `2^c ≤ p / q` for naturals `p, q ≥ 1`. -/
def le2pow (p q : Nat) (c : Int) : Bool :=
  if 0 ≤ c then q * 2 ^ c.toNat ≤ p else q ≤ p * 2 ^ (-c).toNat

/-- The exponent `k` with `2^k ≤ p/q < 2^(k+1)`, for `p, q ≥ 1`. -/
def fracExp (p q : Nat) : Int :=
  let c : Int := (natLog2 p : Int) - (natLog2 q : Int)
  if le2pow p q c then c else c - 1

/-- Nearest integer to `p / q` (`q ≥ 1`), ties to even. -/
def roundHalfEvenFrac (p q : Nat) : Nat :=
  let f := p / q
  let r := p % q
  if 2 * r < q then f else if q < 2 * r then f + 1 else if f % 2 = 0 then f else f + 1

/-- Round `p / q` (`p, q ≥ 1`) to the nearest binary64 value. -/
def froundFrac (p q : Nat) : Dy :=
  if p = 0 then ⟨0, 0⟩
  else
    let s := fracExp p q - 52
    let m := if 0 ≤ s then roundHalfEvenFrac p (q * 2 ^ s.toNat)
             else roundHalfEvenFrac (p * 2 ^ (-s).toNat) q
    ⟨m, s⟩

/-- Go `float64(a) / float64(b)` for naturals (exactly representable here). -/
def fdivD (a b : Nat) : Dy := froundFrac a b

/-- Go `float64(w) * x` where `x` is an existing float64 value. -/
def fmulND (w : Nat) (d : Dy) : Dy :=
  if 0 ≤ d.e then froundFrac (w * d.m * 2 ^ d.e.toNat) 1
  else froundFrac (w * d.m) (2 ^ (-d.e).toNat)

/-- Go `int(x)` for a nonnegative float64 value: truncation toward zero. -/
def dyFloor (d : Dy) : Nat :=
  if 0 ≤ d.e then d.m * 2 ^ d.e.toNat else d.m / 2 ^ (-d.e).toNat

/-! ### Token estimate and chunker (source lines 25-27, 63-107) -/

/-- `estimateTokens` (source lines 25-27): `len(text) / 4`. -/
def estimateTokens (text : List Char) : Nat := text.length / 4

/-- `strings.Join(lines, "\n")`. -/
def joinNL : List (List Char) → List Char
  | [] => []
  | [l] => l
  | l :: ls => l ++ '\n' :: joinNL ls

/-- Source lines 65-70: `linesPerChunk := 30`, then
`if len(filteredLogLines) <= linesPerChunk { linesPerChunk = len(filteredLogLines) }`. -/
def linesPerChunkOf (n : Nat) : Nat := if n ≤ 30 then n else 30

/-- Source line 78: `chunkCount := (len + linesPerChunk - 1) / linesPerChunk`.
Go integer division panics when the divisor is zero; the panic is `none`. -/
def chunkCountOf (n : Nat) : Option Nat :=
  let lpc := linesPerChunkOf n
  if lpc = 0 then none else some ((n + lpc - 1) / lpc)

/-- Source line 93: `int(float64(end-i) * reductionFactor)` where
`reductionFactor := float64(maxTokensPerChunk) / float64(estimatedChunkTokens)`
(line 92). -/
def shrunkReduction (wl est : Nat) : Nat :=
  dyFloor (fmulND wl (fdivD maxTokensPerChunk est))

/-- Source lines 93-99: the new chunk end after shrinking, with its two clamps
(`newEnd <= i` forces `i+1`; `newEnd > len` forces `len`). -/
def shrunkEnd (n i wl est : Nat) : Nat :=
  let ne1 := i + shrunkReduction wl est
  let ne2 := if ne1 ≤ i then i + 1 else ne1
  if n < ne2 then n else ne2

/-- The chunk loop, source lines 79-127, restricted to the chunks it emits.
Go iterates `for i := 0; i < len(lines); i += linesPerChunk`; the fuel
argument makes the recursion structural (fuel `lines.length` suffices since
each iteration advances `i` by `lpc ≥ 1`).  Note the loop step is the fixed
`lpc` even when the window was shrunk. -/
def chunkFromFuel (lines : List (List Char)) (lpc : Nat) : Nat → Nat → List (List (List Char))
  | 0, _ => []
  | fuel + 1, i =>
    if i < lines.length then
      let n := lines.length
      let e := min (i + lpc) n
      let w := (lines.drop i).take (e - i)
      let est := estimateTokens (joinNL w)
      let e2 := if maxTokensPerChunk < est then shrunkEnd n i (e - i) est else e
      ((lines.drop i).take (e2 - i)) :: chunkFromFuel lines lpc fuel (i + lpc)
    else []

/-- All chunks emitted by the loop of source lines 79-127. -/
def goChunks (lines : List (List Char)) (lpc : Nat) : List (List (List Char)) :=
  chunkFromFuel lines lpc lines.length 0

/-! ### Log filter (source lines 44-59) -/

/-- `bytes.Split(logData, []byte("\n"))`. -/
def splitLines (data : List Char) : List (List Char) := data.splitOn '\n'

/-- The per-line test of source lines 48-58: nonempty, at least 25 bytes,
first 25 bytes parse (`time.Parse(time.RFC3339, _)` abstracted as `parse`),
and the parsed instant is strictly inside `(startT, endT)`
(`logTime.After(startTime) && logTime.Before(endTime)`). -/
def keepLine (parse : List Char → Option Int) (startT endT : Int) (line : List Char) : Bool :=
  if 0 < line.length then
    if 25 ≤ line.length then
      match parse (line.take 25) with
      | some t => decide (startT < t ∧ t < endT)
      | none => false
    else false
  else false

/-- The filtered line sequence `filteredLogLines` of source lines 46-59. -/
def filterLog (parse : List Char → Option Int) (startT endT : Int)
    (lines : List (List Char)) : List (List Char) :=
  lines.filter (keepLine parse startT endT)

/-! ### Report assembler (source lines 215-293) -/

/-- `saveProgress` (source lines 215-241): the checkpoint text written after
every chunk. -/
def saveProgressText (analyses errors : List String) : String :=
  (if 0 < analyses.length then
    "## SUCCESSFUL ANALYSES\n\n" ++ String.join (analyses.map (fun a => a ++ "\n\n---\n\n"))
  else "")
  ++ (if 0 < errors.length then
    "\n\n## ERRORS\n\n" ++ String.join (errors.map (fun e => e ++ "\n\n"))
  else "")

/-- The truncation note of source lines 263-264. -/
def truncNoteAnalyses (k : Nat) : String :=
  "\n\n*Note: " ++ toString k ++ " additional analyses were truncated due to size limits.*\n"

/-- The truncation note of source lines 278-279. -/
def truncNoteErrors (k : Nat) : String :=
  "\n\n*Note: " ++ toString k ++ " additional errors were truncated due to size limits.*\n"

/-- The findings loop of `compileFinalSummary` (source lines 259-270): appends
analyses while the running character total stays within the cap, and on the
first overflow appends a note citing the number of remaining analyses and
stops.  Returns the rendered text and the final running total. -/
def findingsLoop (cap : Nat) : List String → Nat → String × Nat
  | [], total => ("", total)
  | a :: rest, total =>
    if cap < total + a.length then (truncNoteAnalyses (a :: rest).length, total)
    else
      let p := findingsLoop cap rest (total + a.length)
      (a ++ "\n\n---\n\n" ++ p.1, p.2)

/-- The error loop of `compileFinalSummary` (source lines 275-285); the
running total continues from where the findings loop left it. -/
def errorsLoop (cap : Nat) : List String → Nat → String × Nat
  | [], total => ("", total)
  | e :: rest, total =>
    if cap < total + e.length then (truncNoteErrors (e :: rest).length, total)
    else
      let p := errorsLoop cap rest (total + e.length)
      (e ++ "\n\n" ++ p.1, p.2)

/-- `compileFinalSummary` (source lines 243-293): the final report text.
`ts` is the formatted current time of line 248. -/
def compileFinalText (ts : String) (analyses errors : List String) : String :=
  "# LOG ANALYSIS SUMMARY\n" ++ "Generated on " ++ ts ++ "\n\n"
  ++ "Processed " ++ toString analyses.length ++ " chunks of logs from the last hour.\n"
  ++ (if 0 < errors.length then
        "Encountered " ++ toString errors.length ++ " errors during processing.\n"
      else "")
  ++ "\n---\n\n"
  ++ "## DETAILED FINDINGS\n\n"
  ++ (findingsLoop maxCharsPerSummary analyses 0).1
  ++ (if 0 < errors.length then
        "\n\n## ERRORS\n\n"
        ++ (errorsLoop maxCharsPerSummary errors (findingsLoop maxCharsPerSummary analyses 0).2).1
      else "")

/-! ### The analyzer main loop as a trace of file writes (source lines 74-137)

Each chunk's network round-trip is abstracted by an oracle
`respond : Nat → String × Bool` giving `processLogChunk`'s return value
(analysis text, isError flag) for each chunk index. -/

/-- The successful analyses accumulated by the loop of lines 115-123, in order. -/
def successesOf : List (String × Bool) → List String
  | [] => []
  | (a, isErr) :: rest => if isErr then successesOf rest else a :: successesOf rest

/-- The error messages accumulated by the loop of lines 115-123, in order. -/
def errorsOf : List (String × Bool) → List String
  | [] => []
  | (a, isErr) :: rest => if isErr then a :: errorsOf rest else errorsOf rest

/-- The chunk loop of lines 79-127 as an accumulator: given the remaining
chunk results and the successes/errors so far, returns the final successes,
the final errors, and the checkpoint texts written by `saveProgress`
(line 126), one per chunk, in order. -/
def chunkLoopAcc : List (String × Bool) → List String → List String →
    List String × List String × List String
  | [], succ, errs => (succ, errs, [])
  | (a, isErr) :: rest, succ, errs =>
    let succ2 := if isErr then succ else succ ++ [a]
    let errs2 := if isErr then errs ++ [a] else errs
    let p := chunkLoopAcc rest succ2 errs2
    (p.1, p.2.1, saveProgressText succ2 errs2 :: p.2.2)

/-- The checkpoint writes of a run. -/
def checkpointWrites (results : List (String × Bool)) : List String :=
  (chunkLoopAcc results [] []).2.2

/-- All writes to the output file during a run, in order: one checkpoint per
chunk (line 126), then the final summary (lines 131-135) written only when
at least one chunk succeeded. -/
def analyzerWrites (results : List (String × Bool)) (ts : String) : List String :=
  let p := chunkLoopAcc results [] []
  if 0 < p.1.length then p.2.2 ++ [compileFinalText ts p.1 p.2.1] else p.2.2

/-- The whole post-filter run (source lines 63-137): compute `linesPerChunk`
and `chunkCount` (panicking — `none` — on a zero divisor, before any write),
process the chunks against the response oracle, and return the write trace. -/
def analyzerRun (lines : List (List Char)) (respond : Nat → String × Bool)
    (ts : String) : Option (List String) :=
  let lpc := linesPerChunkOf lines.length
  match chunkCountOf lines.length with
  | none => none
  | some _ =>
    let chunks := goChunks lines lpc
    let results := (List.range chunks.length).map respond
    some (analyzerWrites results ts)

def sumLens (l : List String) : Nat := (l.map String.length).sum

/-- The in-order rendering of a list of analyses, each followed by `sep`. -/
def renderSeq (sep : String) : List String → String
  | [] => ""
  | a :: rest => a ++ sep ++ renderSeq sep rest

/-- The two-line input refuting the coverage clause of C1 as stated: the
first window (both lines, 6004 joined characters, estimate 1501) is shrunk
to its first line, and the loop then strides past the second line, which is
dropped rather than carried into a next window. -/
def exLinesC1 : List (List Char) := [List.replicate 6002 'a', ['b']]

/-! ### Completion-client response parsing (source lines 182-213) -/

/-- Decoded JSON values (the result of `json.Unmarshal` into
`map[string]interface{}` and the `interface{}` values inside it). -/
inductive JVal where
  | null
  | bool (b : Bool)
  | num (n : Int)
  | str (s : String)
  | arr (elems : List JVal)
  | obj (fields : List (String × JVal))

/-- Go map lookup `result[k]` on a decoded JSON object. -/
def jLookup (fields : List (String × JVal)) (k : String) : Option JVal :=
  (fields.find? (fun p => p.1 == k)).map (fun p => p.2)

/-- `processLogChunk`'s handling of a decoded response (source lines 189-213):
the error field (object with message, or plain string) is surfaced as a
failure; otherwise `choices[0].message.content` is extracted with a
placeholder fallback at every level, and the analysis is returned wrapped in
the chunk label banner with the failure flag `false`. -/
def processResponse (label : String) (result : List (String × JVal)) : String × Bool :=
  match jLookup result "error" with
  | some (JVal.obj eo) =>
    let errorMsg := match jLookup eo "message" with
      | some (JVal.str m) => m
      | _ => "Unknown error"
    ("Error from AI service: " ++ errorMsg, true)
  | some (JVal.str es) => ("Error from AI service: " ++ es, true)
  | _ =>
    let analysis := match jLookup result "choices" with
      | some (JVal.arr (c :: _)) =>
        match c with
        | JVal.obj co =>
          match jLookup co "message" with
          | some (JVal.obj mo) =>
            match jLookup mo "content" with
            | some (JVal.str content) => content
            | _ => "No analysis received for " ++ label ++ "."
          | _ => "No analysis received for " ++ label ++ "."
        | _ => "No analysis received for " ++ label ++ "."
      | _ => "No analysis received for " ++ label ++ "."
    ("=== " ++ label ++ " ===\n\n" ++ analysis, false)

end LogAnalyzer

namespace Enhancer

/-! ### The enhancer program (second source file) -/

/-- The newline scan of the enhancer's truncation step (source lines 39-44):
the first index `i < 1000` (and within the data) with `data[i] = '\n'`.
`i` is the current loop index, so the scan starts as `nlScan d 0`. -/
def nlScan : List Char → Nat → Option Nat
  | [], _ => none
  | c :: rest, i => if 1000 ≤ i then none else if c = '\n' then some i else nlScan rest (i + 1)

/-- The enhancer's size cap on the summary file (source lines 33-46): keep
the trailing 100000 bytes, then drop through the first newline found within
the first 1000 bytes. -/
def truncateSummaryData (data : List Char) : List Char :=
  if 100000 < data.length then
    let d := data.drop (data.length - 100000)
    match nlScan d 0 with
    | some i => d.drop (i + 1)
    | none => d
  else data

/-- Stated from the claim's words (C9), for comparison with
`truncateSummaryData`: files at or under the ceiling pass through
unmodified; otherwise keep exactly the trailing 100000 bytes and, if a
newline occurs within the first 1000 bytes of that trailing portion, drop
everything through the first such newline. -/
def truncateByClaim (data : List Char) : List Char :=
  if data.length ≤ 100000 then data
  else
    let t := data.drop (data.length - 100000)
    match (t.take 1000).findIdx? (fun c => c = '\n') with
    | some i => t.drop (i + 1)
    | none => t

/-- `strings.ToUpper` (per-character uppercase; faithful on the ASCII range,
which is all the containment test of line 141 depends on). -/
def goToUpper (s : List Char) : List Char := s.map Char.toUpper

def recommendationWord : List Char := "RECOMMENDATION".toList

/-- The synthesized fallback section of source lines 142-143. -/
def fallbackRecSection : List Char :=
  ("\n\n## RECOMMENDATIONS\n\n"
   ++ "The AI did not provide specific recommendations. Please review the summary to determine appropriate actions.\n").toList

/-- The header of source lines 136-137; `ts` is the formatted current time. -/
def enhancerHeader (ts : List Char) : List Char :=
  "# ENHANCED LOG SUMMARY WITH RECOMMENDATIONS\n".toList
  ++ "Generated on ".toList ++ ts ++ "\n\n".toList

/-- The output-formatting step of `enhanceSummaryWithRecommendations`
(source lines 134-146): header, model reply, and the fallback
RECOMMENDATIONS section exactly when
`strings.Contains(strings.ToUpper(reply), "RECOMMENDATION")` fails. -/
def formatEnhanced (ts reply : List Char) : List Char :=
  enhancerHeader ts ++ reply
  ++ (if recommendationWord <:+: goToUpper reply then [] else fallbackRecSection)

end Enhancer

namespace LogAnalyzer

/-! ### C5: completion-client response parsing -/

/-- C5: for every decoded JSON response, the completion client returns: for
`{"choices":[{"message":{"content":"X"}}]}` a success whose extracted result
text is `X` (wrapped in the chunk-label banner); for
`{"error":{"message":"bad"}}` a failure carrying `"bad"`; and for
`{"choices":[]}` a success carrying the "no analysis received" placeholder
rather than a failure. -/
theorem processResponse_three_cases (label content : String) :
    processResponse label
        [("choices", JVal.arr [JVal.obj [("message", JVal.obj [("content", JVal.str content)])]])]
      = ("=== " ++ label ++ " ===\n\n" ++ content, false)
    ∧ processResponse label [("error", JVal.obj [("message", JVal.str "bad")])]
      = ("Error from AI service: " ++ "bad", true)
    ∧ processResponse label [("choices", JVal.arr [])]
      = ("=== " ++ label ++ " ===\n\n" ++ ("No analysis received for " ++ label ++ "."), false) :=
  ⟨rfl, rfl, rfl⟩

/-! ### C2: empty filtered sequence panics; nonempty is well-defined -/

/-- C2: when the filter retains zero lines, `linesPerChunk` becomes 0 and the
chunk-count division panics (`none`) before any output is written; for every
nonempty filtered sequence the divisor is positive and the run proceeds. -/
theorem empty_filter_panics_nonempty_ok (lines : List (List Char))
    (respond : Nat → String × Bool) (ts : String) :
    (lines.length = 0 →
      linesPerChunkOf lines.length = 0 ∧ chunkCountOf lines.length = none ∧
      analyzerRun lines respond ts = none)
    ∧ (0 < lines.length →
      0 < linesPerChunkOf lines.length ∧ (∃ c, chunkCountOf lines.length = some c) ∧
      ∃ w, analyzerRun lines respond ts = some w) := by
  constructor
  · intro h0
    have hlpc : linesPerChunkOf lines.length = 0 := by
      simp [linesPerChunkOf, h0]
    have hcc : chunkCountOf lines.length = none := by
      simp [chunkCountOf, hlpc]
    refine ⟨hlpc, hcc, ?_⟩
    simp [analyzerRun, hcc]
  · intro hpos
    have hlpc : 0 < linesPerChunkOf lines.length := by
      unfold linesPerChunkOf
      split <;> omega
    have hcc : chunkCountOf lines.length
        = some ((lines.length + linesPerChunkOf lines.length - 1) / linesPerChunkOf lines.length) := by
      unfold chunkCountOf
      simp [Nat.pos_iff_ne_zero.mp hlpc]
    refine ⟨hlpc, ⟨_, hcc⟩, ?_⟩
    simp only [analyzerRun, hcc]
    exact ⟨_, rfl⟩

/-- Witness for C2 at the empty filtered sequence and a one-line sequence. -/
theorem empty_filter_panics_nonempty_ok_witness :
    (linesPerChunkOf (List.length ([] : List (List Char))) = 0 ∧
     chunkCountOf (List.length ([] : List (List Char))) = none ∧
     analyzerRun [] (fun _ => ("", true)) "" = none)
    ∧ (0 < linesPerChunkOf [['a']].length ∧
       (∃ c, chunkCountOf [['a']].length = some c) ∧
       ∃ w, analyzerRun [['a']] (fun _ => ("", true)) "" = some w) :=
  ⟨(empty_filter_panics_nonempty_ok [] (fun _ => ("", true)) "").1 rfl,
   (empty_filter_panics_nonempty_ok [['a']] (fun _ => ("", true)) "").2 (by decide)⟩

/-! ### C3: the line filter -/

/-- C3: a line is retained by the filter iff its length is at least 25, its
first 25 characters parse (via the abstracted RFC3339 parser), and the
parsed instant is strictly inside the window; every line shorter than 25
bytes is dropped. -/
theorem filter_retention_iff (parse : List Char → Option Int) (startT endT : Int)
    (lines : List (List Char)) (line : List Char) :
    (line ∈ filterLog parse startT endT lines ↔
      line ∈ lines ∧ 25 ≤ line.length ∧
        ∃ t, parse (line.take 25) = some t ∧ startT < t ∧ t < endT)
    ∧ (line.length < 25 → line ∉ filterLog parse startT endT lines) := by
  have hkeep : keepLine parse startT endT line = true ↔
      25 ≤ line.length ∧ ∃ t, parse (line.take 25) = some t ∧ startT < t ∧ t < endT := by
    by_cases h25 : 25 ≤ line.length
    · have h0 : 0 < line.length := by omega
      unfold keepLine
      rw [if_pos h0, if_pos h25]
      rcases hp : parse (line.take 25) with _ | t
      · simp [hp]
      · simp [hp, h25]
    · have hfalse : keepLine parse startT endT line = false := by
        unfold keepLine
        by_cases h0 : 0 < line.length
        · rw [if_pos h0, if_neg h25]
        · rw [if_neg h0]
      rw [hfalse]
      simp only [Bool.false_eq_true, false_iff]
      rintro ⟨hh, -⟩
      exact h25 hh
  constructor
  · rw [filterLog, List.mem_filter, hkeep]
  · intro hshort hmem
    rw [filterLog, List.mem_filter, hkeep] at hmem
    omega

/-- Witness for C3: a 30-byte line with an in-window timestamp is kept; a
1-byte line is dropped. -/
theorem filter_retention_iff_witness :
    (List.replicate 30 'x' ∈ filterLog
        (fun l => if l.length = 25 then some 5 else none) 0 10 [List.replicate 30 'x'])
    ∧ ¬ (['a'] ∈ filterLog
        (fun l => if l.length = 25 then some 5 else none) 0 10 [['a'], List.replicate 30 'x']) :=
  ⟨(filter_retention_iff (fun l => if l.length = 25 then some 5 else none) 0 10
      [List.replicate 30 'x'] (List.replicate 30 'x')).1.mpr
      ⟨by simp, by simp, 5, by simp, by decide, by decide⟩,
   (filter_retention_iff (fun l => if l.length = 25 then some 5 else none) 0 10
      [['a'], List.replicate 30 'x'] ['a']).2 (by decide)⟩

end LogAnalyzer

namespace Enhancer

/-! ### C9: the enhancer's input truncation -/

theorem nlScan_eq_findIdx (d : List Char) : ∀ i : Nat,
    nlScan d i = (match (d.take (1000 - i)).findIdx? (fun c => c = '\n') with
                  | some j => some (i + j)
                  | none => none) := by
  induction d with
  | nil => intro i; simp [nlScan]
  | cons c rest ih =>
    intro i
    by_cases hb : 1000 ≤ i
    · have : 1000 - i = 0 := by omega
      simp [nlScan, hb, this]
    · have htk : 1000 - i = (1000 - (i + 1)) + 1 := by omega
      rw [nlScan, if_neg hb, htk]
      by_cases hc : c = '\n'
      · simp [hc, List.findIdx?_cons]
      · rw [if_neg hc, ih (i + 1)]
        simp only [List.take_succ_cons, List.findIdx?_cons, decide_eq_true_eq, hc,
          if_false, Nat.zero_add, List.findIdx?_succ]
        rcases h : (rest.take (1000 - (i + 1))).findIdx? (fun c => decide (c = '\n')) with _ | j
        · simp [h]
        · simp [h]; omega

theorem nlScan_zero (d : List Char) :
    nlScan d 0 = (match (d.take 1000).findIdx? (fun c => c = '\n') with
                  | some j => some j
                  | none => none) := by
  have h := nlScan_eq_findIdx d 0
  simpa using h

/-- C9: for every input report, the enhancer keeps exactly the trailing
100000 bytes of an over-ceiling file and then drops everything through the
first newline occurring within the first 1000 bytes of that trailing
portion; files at or under the ceiling pass through unmodified.  Stated as
equality with `truncateByClaim`, the direct transcription of the claim. -/
theorem truncation_matches_claim (data : List Char) :
    truncateSummaryData data = truncateByClaim data := by
  unfold truncateSummaryData truncateByClaim
  by_cases h : 100000 < data.length
  · rw [if_pos h, if_neg (by omega)]
    simp only [nlScan_zero]
    rcases hf : ((data.drop (data.length - 100000)).take 1000).findIdx? (fun c => decide (c = '\n'))
        with _ | j <;> simp [hf]
  · rw [if_neg h, if_pos (by omega)]

/-! ### C7: the fallback RECOMMENDATIONS section -/

theorem upper_infix_iff (reply : List Char) :
    recommendationWord <:+: goToUpper reply ↔
      ∃ w, w <:+: reply ∧ goToUpper w = recommendationWord := by
  constructor
  · rintro ⟨s, t, hst⟩
    have hm : goToUpper reply = (s ++ recommendationWord) ++ t := by
      rw [← hst, List.append_assoc]
    rcases List.map_eq_append_iff.mp hm.symm.symm with ⟨l1, l2, hre, hm1, hm2⟩
    rcases List.map_eq_append_iff.mp hm1 with ⟨l3, l4, hl1, hm3, hm4⟩
    refine ⟨l4, ⟨l3, l2, ?_⟩, hm4⟩
    rw [hre, hl1, List.append_assoc]
  · rintro ⟨w, ⟨s, t, hst⟩, hup⟩
    refine ⟨goToUpper s, goToUpper t, ?_⟩
    rw [← hup]
    unfold goToUpper
    rw [← List.map_append, ← List.map_append, hst]

/-- C7: the enhancer's output has the synthesized fallback RECOMMENDATIONS
section appended iff the model reply does not contain the substring
"RECOMMENDATION" case-insensitively (i.e. no infix of the reply uppercases
to it). -/
theorem fallback_iff_no_recommendation (ts reply : List Char) :
    (formatEnhanced ts reply = enhancerHeader ts ++ reply ++ fallbackRecSection
      ↔ ¬ ∃ w, w <:+: reply ∧ goToUpper w = recommendationWord)
    ∧ ((∃ w, w <:+: reply ∧ goToUpper w = recommendationWord) →
        formatEnhanced ts reply = enhancerHeader ts ++ reply) := by
  by_cases hc : recommendationWord <:+: goToUpper reply
  · have hex := (upper_infix_iff reply).mp hc
    have hfe : formatEnhanced ts reply = enhancerHeader ts ++ reply := by
      unfold formatEnhanced
      rw [if_pos hc, List.append_nil]
    refine ⟨?_, fun _ => hfe⟩
    rw [hfe]
    refine iff_of_false (fun heq => ?_) (fun hn => hn hex)
    have hlen := congrArg List.length heq
    simp only [List.length_append] at hlen
    have hfb : 0 < fallbackRecSection.length := by decide
    omega
  · have hnex : ¬ ∃ w, w <:+: reply ∧ goToUpper w = recommendationWord :=
      fun hex => hc ((upper_infix_iff reply).mpr hex)
    have hfe : formatEnhanced ts reply = enhancerHeader ts ++ reply ++ fallbackRecSection := by
      unfold formatEnhanced
      rw [if_neg hc]
    exact ⟨by rw [hfe]; exact iff_of_true rfl hnex, fun hex => absurd hex hnex⟩

/-- Witness for C7: a reply containing "RECOMMENDATIONS" gets no fallback
section appended. -/
theorem fallback_iff_no_recommendation_witness :
    formatEnhanced [] ("See RECOMMENDATIONS".toList)
      = enhancerHeader [] ++ ("See RECOMMENDATIONS".toList) :=
  (fallback_iff_no_recommendation [] ("See RECOMMENDATIONS".toList)).2
    ⟨recommendationWord, ⟨"See ".toList, "S".toList, by decide⟩, by decide⟩

end Enhancer

namespace LogAnalyzer

/-! ### C6: final-report truncation -/

theorem findingsLoop_break (cap : Nat) :
    ∀ (l : List String) (i total : Nat), i < l.length →
      cap < total + sumLens (l.take (i + 1)) →
      total + sumLens (l.take i) ≤ cap →
      findingsLoop cap l total
        = (renderSeq "\n\n---\n\n" (l.take i) ++ truncNoteAnalyses (l.length - i),
           total + sumLens (l.take i)) := by
  intro l
  induction l with
  | nil =>
    intro i total hi _ _
    simp at hi
  | cons a rest ih =>
    intro i total hi hover hok
    cases i with
    | zero =>
      have hbr : cap < total + a.length := by
        rw [List.take_succ_cons, List.take_zero] at hover
        simp [sumLens] at hover
        omega
      simp only [findingsLoop, if_pos hbr]
      simp [sumLens, renderSeq]
    | succ j =>
      rw [List.take_succ_cons] at hok hover
      have hsum : sumLens (a :: rest.take j) = a.length + sumLens (rest.take j) := by
        simp [sumLens]
      have hsum2 : sumLens (a :: rest.take (j + 1)) = a.length + sumLens (rest.take (j + 1)) := by
        simp [sumLens]
      have hnb : ¬ cap < total + a.length := by
        rw [hsum] at hok
        omega
      simp only [findingsLoop, if_neg hnb]
      have hrec := ih j (total + a.length) (by simp at hi; omega)
        (by rw [hsum2] at hover; omega) (by rw [hsum] at hok; omega)
      rw [hrec]
      rw [List.take_succ_cons, hsum]
      refine Prod.ext ?_ ?_
      · show a ++ "\n\n---\n\n" ++ (renderSeq "\n\n---\n\n" (rest.take j)
          ++ truncNoteAnalyses (rest.length - j)) = _
        rw [renderSeq]
        have hlen : (a :: rest).length - (j + 1) = rest.length - j := by
          simp
        rw [hlen]
        simp [String.append_assoc]
      · show total + a.length + sumLens (rest.take j) = _
        omega

/-- C6: for every ceiling and every list of analyses whose cumulative
character size first exceeds the ceiling at index `i`, the findings section
of the final report renders analyses `[0, i)` verbatim (each followed by the
separator), stops there, and appends a truncation note citing exactly
`analyses.length - i` omitted analyses. -/
theorem final_report_truncation (cap : Nat) (analyses : List String) (i : Nat)
    (hi : i < analyses.length)
    (hover : cap < sumLens (analyses.take (i + 1)))
    (hok : sumLens (analyses.take i) ≤ cap) :
    (findingsLoop cap analyses 0).1
      = renderSeq "\n\n---\n\n" (analyses.take i)
        ++ truncNoteAnalyses (analyses.length - i) := by
  have h := findingsLoop_break cap analyses i 0 hi (by omega) (by omega)
  rw [h]

/-- Witness for C6: ceiling 5 and analyses of sizes 3, 2, 2 overflow first at
index 2, so the first two render and the note cites 1 omitted analysis. -/
theorem final_report_truncation_witness :
    (findingsLoop 5 ["abc", "de", "fg"] 0).1
      = renderSeq "\n\n---\n\n" ["abc", "de"] ++ truncNoteAnalyses 1 := by
  have h := final_report_truncation 5 ["abc", "de", "fg"] 2 (by decide)
    (by decide) (by decide)
  simpa using h

/-! ### C10: the final report is compiled iff at least one chunk succeeded -/

theorem chunkLoopAcc_fst (results : List (String × Bool)) : ∀ succ errs,
    (chunkLoopAcc results succ errs).1 = succ ++ successesOf results ∧
    (chunkLoopAcc results succ errs).2.1 = errs ++ errorsOf results := by
  induction results with
  | nil => intro succ errs; simp [chunkLoopAcc, successesOf, errorsOf]
  | cons r rest ih =>
    intro succ errs
    obtain ⟨a, isErr⟩ := r
    cases isErr
    · simp only [chunkLoopAcc, successesOf, errorsOf, Bool.false_eq_true, if_false]
      refine ⟨?_, ?_⟩
      · rw [(ih (succ ++ [a]) errs).1]
        simp
      · rw [(ih (succ ++ [a]) errs).2]
    · simp only [chunkLoopAcc, successesOf, errorsOf, if_true]
      refine ⟨?_, ?_⟩
      · rw [(ih succ (errs ++ [a])).1]
      · rw [(ih succ (errs ++ [a])).2]
        simp

theorem chunkLoopAcc_len (results : List (String × Bool)) : ∀ succ errs,
    (chunkLoopAcc results succ errs).2.2.length = results.length := by
  induction results with
  | nil => intro succ errs; simp [chunkLoopAcc]
  | cons r rest ih =>
    intro succ errs
    obtain ⟨a, isErr⟩ := r
    simp only [chunkLoopAcc]
    simp [ih]

theorem chunkLoopAcc_last (results : List (String × Bool)) : ∀ succ errs,
    results ≠ [] →
    (chunkLoopAcc results succ errs).2.2.getLast?
      = some (saveProgressText (succ ++ successesOf results) (errs ++ errorsOf results)) := by
  induction results with
  | nil => intro succ errs h; exact absurd rfl h
  | cons r rest ih =>
    intro succ errs _
    obtain ⟨a, isErr⟩ := r
    cases isErr
    · simp only [chunkLoopAcc, Bool.false_eq_true, if_false]
      rcases hrest : rest with _ | ⟨b, rest2⟩
      · simp [chunkLoopAcc, successesOf, errorsOf]
      · rw [← hrest]
        have hne : rest ≠ [] := by rw [hrest]; exact List.cons_ne_nil _ _
        have hlen := chunkLoopAcc_len rest (succ ++ [a]) errs
        rcases hw : (chunkLoopAcc rest (succ ++ [a]) errs).2.2 with _ | ⟨w, ws⟩
        · rw [hw, hrest] at hlen
          simp at hlen
        · rw [List.getLast?_cons_cons, ← hw, ih (succ ++ [a]) errs hne]
          simp [successesOf, errorsOf]
    · simp only [chunkLoopAcc, if_true]
      rcases hrest : rest with _ | ⟨b, rest2⟩
      · simp [chunkLoopAcc, successesOf, errorsOf]
      · rw [← hrest]
        have hne : rest ≠ [] := by rw [hrest]; exact List.cons_ne_nil _ _
        have hlen := chunkLoopAcc_len rest succ (errs ++ [a])
        rcases hw : (chunkLoopAcc rest succ (errs ++ [a])).2.2 with _ | ⟨w, ws⟩
        · rw [hw, hrest] at hlen
          simp at hlen
        · rw [List.getLast?_cons_cons, ← hw, ih succ (errs ++ [a]) hne]
          simp [successesOf, errorsOf]

/-- C10: the final report is compiled iff at least one chunk succeeded; when
zero chunks succeed the write trace is exactly the per-chunk checkpoints, so
the output file is left as written by the last checkpoint, whose text lists
no successes and all errors. -/
theorem final_report_iff_success (results : List (String × Bool)) (ts : String) :
    (successesOf results = [] → analyzerWrites results ts = checkpointWrites results)
    ∧ (analyzerWrites results ts
        = checkpointWrites results
          ++ [compileFinalText ts (successesOf results) (errorsOf results)]
      ↔ successesOf results ≠ [])
    ∧ (results ≠ [] → successesOf results = [] →
        (analyzerWrites results ts).getLast?
          = some (saveProgressText [] (errorsOf results))) := by
  have h1 : (chunkLoopAcc results [] []).1 = successesOf results := by
    simpa using (chunkLoopAcc_fst results [] []).1
  have h2 : (chunkLoopAcc results [] []).2.1 = errorsOf results := by
    simpa using (chunkLoopAcc_fst results [] []).2
  have hskip : successesOf results = [] → analyzerWrites results ts = checkpointWrites results := by
    intro hs
    simp only [analyzerWrites, checkpointWrites]
    rw [h1, hs]
    simp
  refine ⟨hskip, ?_, ?_⟩
  · constructor
    · intro heq
      intro hs
      rw [hskip hs] at heq
      have hlen := congrArg List.length heq
      simp at hlen
    · intro hs
      have hpos : 0 < (chunkLoopAcc results [] []).1.length := by
        rw [h1]
        exact List.length_pos.mpr hs
      simp only [analyzerWrites, checkpointWrites]
      rw [if_pos hpos, h1, h2]
  · intro hne hs
    rw [hskip hs]
    unfold checkpointWrites
    rw [chunkLoopAcc_last results [] [] hne]
    rw [hs]
    simp

/-- Witness for C10 at a run whose single chunk failed. -/
theorem final_report_iff_success_witness :
    (analyzerWrites [("e", true)] "" = checkpointWrites [("e", true)])
    ∧ (analyzerWrites [("e", true)] "").getLast?
        = some (saveProgressText [] ["e"]) := by
  have h := final_report_iff_success [("e", true)] ""
  exact ⟨h.1 rfl, h.2.2 (List.cons_ne_nil _ _) rfl⟩

/-! ### C1: chunker coverage -/

theorem shrunkEnd_bounds (n i wl est : Nat) (hin : i < n) :
    i + 1 ≤ shrunkEnd n i wl est ∧ shrunkEnd n i wl est ≤ n := by
  simp only [shrunkEnd]
  split_ifs <;> omega

theorem chunkFromFuel_ne_nil (lines : List (List Char)) (lpc : Nat) (hl : 0 < lpc) :
    ∀ fuel i, ∀ c ∈ chunkFromFuel lines lpc fuel i, c ≠ [] := by
  intro fuel
  induction fuel with
  | zero => intro i c hc; simp [chunkFromFuel] at hc
  | succ f ih =>
    intro i c hc
    by_cases hin : i < lines.length
    · simp only [chunkFromFuel] at hc
      rw [if_pos hin] at hc
      rcases List.mem_cons.mp hc with hhd | htl
      · subst hhd
        rw [← List.length_pos, List.length_take, List.length_drop]
        have he2 : i + 1 ≤ (if maxTokensPerChunk <
            estimateTokens (joinNL ((lines.drop i).take (min (i + lpc) lines.length - i))) then
              shrunkEnd lines.length i (min (i + lpc) lines.length - i)
                (estimateTokens (joinNL ((lines.drop i).take (min (i + lpc) lines.length - i))))
            else min (i + lpc) lines.length) := by
          split
          · exact (shrunkEnd_bounds lines.length i _ _ hin).1
          · omega
        omega
      · exact ih (i + lpc) c htl
    · simp only [chunkFromFuel] at hc
      rw [if_neg hin] at hc
      simp at hc

theorem chunkFromFuel_join (lines : List (List Char)) (lpc : Nat) (hl : 0 < lpc) :
    ∀ fuel i, lines.length - i ≤ fuel →
      (∀ k : Nat, estimateTokens (joinNL ((lines.drop (i + k * lpc)).take lpc))
        ≤ maxTokensPerChunk) →
      (chunkFromFuel lines lpc fuel i).flatten = lines.drop i := by
  intro fuel
  induction fuel with
  | zero =>
    intro i hfuel _
    rw [List.drop_eq_nil_of_le (by omega)]
    simp [chunkFromFuel]
  | succ f ih =>
    intro i hfuel hest
    by_cases hin : i < lines.length
    · have hmin : min (i + lpc) lines.length - i = min lpc (lines.length - i) := by omega
      have htake : (lines.drop i).take (min lpc (lines.length - i)) = (lines.drop i).take lpc := by
        rw [List.take_eq_take]
        rw [List.length_drop]
        omega
      have hest0 : estimateTokens (joinNL ((lines.drop i).take lpc)) ≤ maxTokensPerChunk := by
        have h := hest 0
        simpa using h
      simp only [chunkFromFuel]
      rw [if_pos hin, hmin, htake, if_neg (not_lt.mpr hest0), hmin, htake]
      rw [List.flatten_cons]
      rw [ih (i + lpc) (by omega) (fun k => by
        have h := hest (k + 1)
        rwa [show i + (k + 1) * lpc = i + lpc + k * lpc by ring] at h)]
      rw [← List.drop_drop lpc i lines]
      exact List.take_append_drop lpc (lines.drop i)
    · simp only [chunkFromFuel]
      rw [if_neg hin, List.drop_eq_nil_of_le (by omega)]
      rfl

/-- C1 (amended): the chunker emits only non-empty chunks, and the in-order
concatenation of the lines of all emitted chunks equals the filtered line
sequence whenever no window exceeds the token ceiling (so no shrink
happens).  The original claim's clause that shrink-removed lines reappear in
the next window is false: the loop advances by the fixed stride, so those
lines are skipped (see the counterexample). -/
theorem chunker_nonempty_and_coverage (lines : List (List Char)) (lpc : Nat) (hl : 0 < lpc) :
    (∀ c ∈ goChunks lines lpc, c ≠ [])
    ∧ ((∀ k : Nat, estimateTokens (joinNL ((lines.drop (k * lpc)).take lpc))
          ≤ maxTokensPerChunk) →
        (goChunks lines lpc).flatten = lines) := by
  constructor
  · exact fun c hc => chunkFromFuel_ne_nil lines lpc hl lines.length 0 c hc
  · intro hest
    have h := chunkFromFuel_join lines lpc hl lines.length 0 (by omega)
      (fun k => by simpa using hest k)
    simpa using h

/-- Witness for the amended C1 on a two-line input with small windows. -/
theorem chunker_nonempty_and_coverage_witness :
    (∀ c ∈ goChunks [['a'], ['b']] 2, c ≠ [])
    ∧ (goChunks [['a'], ['b']] 2).flatten = [['a'], ['b']] := by
  have h := chunker_nonempty_and_coverage [['a'], ['b']] 2 (by omega)
  refine ⟨h.1, h.2 ?_⟩
  intro k
  match k with
  | 0 => decide
  | Nat.succ m =>
    rw [List.drop_eq_nil_of_le (by simp)]
    decide

theorem chunkFromFuel_zero (lines : List (List Char)) (lpc i : Nat) :
    chunkFromFuel lines lpc 0 i = [] := rfl

theorem chunkFromFuel_succ_pos (lines : List (List Char)) (lpc fuel i : Nat)
    (hin : i < lines.length) :
    chunkFromFuel lines lpc (fuel + 1) i
      = ((lines.drop i).take
          ((if maxTokensPerChunk < estimateTokens (joinNL
                ((lines.drop i).take (min (i + lpc) lines.length - i))) then
              shrunkEnd lines.length i (min (i + lpc) lines.length - i)
                (estimateTokens (joinNL
                  ((lines.drop i).take (min (i + lpc) lines.length - i))))
            else min (i + lpc) lines.length) - i))
        :: chunkFromFuel lines lpc fuel (i + lpc) := by
  simp only [chunkFromFuel]
  rw [if_pos hin]

theorem chunkFromFuel_succ_neg (lines : List (List Char)) (lpc fuel i : Nat)
    (hin : ¬ i < lines.length) :
    chunkFromFuel lines lpc (fuel + 1) i = [] := by
  simp only [chunkFromFuel]
  rw [if_neg hin]

/-- C1 counterexample: the concatenation of the emitted chunks' lines is
just the first line, not the filtered sequence — the shrunk-off second line
appears in no chunk. -/
theorem chunker_drops_shrunk_remainder :
    (goChunks exLinesC1 (linesPerChunkOf exLinesC1.length)).flatten
        = [List.replicate 6002 'a']
    ∧ (goChunks exLinesC1 (linesPerChunkOf exLinesC1.length)).flatten ≠ exLinesC1 := by
  have hlen : exLinesC1.length = 2 := rfl
  have hest : estimateTokens (joinNL exLinesC1) = 1501 := by
    show (joinNL exLinesC1).length / 4 = 1501
    have hj : joinNL exLinesC1 = List.replicate 6002 'a' ++ '\n' :: ['b'] := rfl
    rw [hj, List.length_append, List.length_replicate]
    rfl
  have hwin : (exLinesC1.drop 0).take (min (0 + 2) exLinesC1.length - 0) = exLinesC1 := by
    rw [List.drop_zero, hlen]
    exact List.take_length exLinesC1
  have hshr : shrunkEnd 2 0 2 1501 = 1 := by decide
  have htake1 : exLinesC1.take 1 = [List.replicate 6002 'a'] := rfl
  have hgo : goChunks exLinesC1 (linesPerChunkOf exLinesC1.length)
      = [[List.replicate 6002 'a']] := by
    show chunkFromFuel exLinesC1 2 exLinesC1.length 0 = [[List.replicate 6002 'a']]
    rw [hlen]
    rw [chunkFromFuel_succ_pos exLinesC1 2 1 0 (by rw [hlen]; omega)]
    rw [chunkFromFuel_succ_neg exLinesC1 2 0 (0 + 2) (by rw [hlen]; omega)]
    have hE : (if maxTokensPerChunk < estimateTokens (joinNL
          ((exLinesC1.drop 0).take (min (0 + 2) exLinesC1.length - 0))) then
            shrunkEnd exLinesC1.length 0 (min (0 + 2) exLinesC1.length - 0)
              (estimateTokens (joinNL
                ((exLinesC1.drop 0).take (min (0 + 2) exLinesC1.length - 0))))
          else min (0 + 2) exLinesC1.length) = 1 := by
      rw [hwin, hest, hlen]
      rw [if_pos (by norm_num [maxTokensPerChunk])]
      exact hshr
    rw [hE, List.drop_zero]
    rw [show (1 : Nat) - 0 = 1 from rfl, htake1]
  rw [hgo]
  constructor
  · rw [List.flatten_cons, List.flatten_nil, List.append_nil]
  · intro h
    rw [List.flatten_cons, List.flatten_nil, List.append_nil] at h
    have hl2 := congrArg List.length h
    rw [hlen, List.length_singleton] at hl2
    omega

/-! ### C8: a chunk can exceed the ceiling even after shrinking -/

theorem shrunkEnd_single (wl est : Nat) : shrunkEnd 1 0 wl est = 1 := by
  simp only [shrunkEnd]
  split_ifs <;> omega

/-- C8: a single filtered line of at least 6004 characters (in particular,
any line longer than 6000 characters up to that bound check) is emitted as a
one-line chunk whose token estimate still exceeds `maxTokensPerChunk`: the
shrink step runs once and its clamp keeps at least one line. -/
theorem oversized_single_line_chunk (line : List Char) (h : 6004 ≤ line.length) :
    goChunks [line] (linesPerChunkOf [line].length) = [[line]]
    ∧ maxTokensPerChunk < estimateTokens (joinNL [line]) := by
  have hest : maxTokensPerChunk < estimateTokens (joinNL [line]) := by
    show 1500 < line.length / 4
    omega
  refine ⟨?_, hest⟩
  show chunkFromFuel [line] 1 1 0 = [[line]]
  rw [chunkFromFuel_succ_pos [line] 1 0 0 (by simp)]
  rw [chunkFromFuel_zero]
  have hwin : (([line] : List (List Char)).drop 0).take
      (min (0 + 1) ([line] : List (List Char)).length - 0) = [line] := rfl
  have hE : (if maxTokensPerChunk < estimateTokens (joinNL
        ((([line] : List (List Char)).drop 0).take
          (min (0 + 1) ([line] : List (List Char)).length - 0))) then
          shrunkEnd ([line] : List (List Char)).length 0
            (min (0 + 1) ([line] : List (List Char)).length - 0)
            (estimateTokens (joinNL
              ((([line] : List (List Char)).drop 0).take
                (min (0 + 1) ([line] : List (List Char)).length - 0))))
        else min (0 + 1) ([line] : List (List Char)).length) = 1 := by
    rw [hwin]
    rw [if_pos hest]
    exact shrunkEnd_single _ _
  rw [hE, List.drop_zero]
  rfl

/-- Witness for C8: a 12000-character line. -/
theorem oversized_single_line_chunk_witness :
    goChunks [List.replicate 12000 'a'] (linesPerChunkOf [List.replicate 12000 'a'].length)
      = [[List.replicate 12000 'a']]
    ∧ maxTokensPerChunk < estimateTokens (joinNL [List.replicate 12000 'a']) :=
  oversized_single_line_chunk (List.replicate 12000 'a')
    (by rw [List.length_replicate]; omega)


/-! ### C4: correctness of the float64 shrink computation

`fracExp` finds the binade of a positive fraction, `roundHalfEvenFrac` is
within 1/2 of the exact scaled value, a rounded value is within a relative
`2^-53` of the exact one, and the two roundings of the shrink step never
push the product `30 * (1500 / est)` across an integer boundary. -/

theorem natLog2Aux_spec : ∀ fuel n : Nat, 1 ≤ n → n ≤ fuel →
    2 ^ natLog2Aux fuel n ≤ n ∧ n < 2 ^ (natLog2Aux fuel n + 1) := by
  intro fuel
  induction fuel with
  | zero => intro n h1 h2; omega
  | succ f ih =>
    intro n h1 h2
    by_cases hn : n ≤ 1
    · have : n = 1 := by omega
      subst this
      simp [natLog2Aux]
    · have h2x : n / 2 ≤ f := by omega
      have h1x : 1 ≤ n / 2 := by omega
      have := ih (n / 2) h1x h2x
      rw [natLog2Aux, if_neg hn]
      constructor
      · rw [pow_succ]
        omega
      · rw [pow_succ]
        omega

theorem natLog2_spec (n : Nat) (h : 1 ≤ n) :
    2 ^ natLog2 n ≤ n ∧ n < 2 ^ (natLog2 n + 1) :=
  natLog2Aux_spec n n h le_rfl


theorem le2pow_iff (p q : Nat) (c : Int) (hq : 1 ≤ q) :
    le2pow p q c = true ↔ (2 : ℚ) ^ c ≤ (p : ℚ) / q := by
  have hq0 : (0 : ℚ) < q := by exact_mod_cast hq
  unfold le2pow
  by_cases hc : 0 ≤ c
  · rw [if_pos hc]
    simp only [decide_eq_true_eq]
    have hzc : (2 : ℚ) ^ c = (2 : ℚ) ^ c.toNat := by
      rw [← zpow_natCast (2 : ℚ) c.toNat, Int.toNat_of_nonneg hc]
    have hcast : ((q * 2 ^ c.toNat : Nat) : ℚ) = (2 : ℚ) ^ c * q := by
      push_cast
      rw [hzc]
      ring
    rw [le_div_iff hq0, ← hcast]
    exact Iff.symm Nat.cast_le
  · rw [if_neg hc]
    simp only [decide_eq_true_eq]
    have h2m : (0 : ℚ) < 2 ^ (-c).toNat := by positivity
    have hzc : (2 : ℚ) ^ c = ((2 : ℚ) ^ (-c).toNat)⁻¹ := by
      rw [← zpow_natCast (2 : ℚ) (-c).toNat, Int.toNat_of_nonneg (by omega : (0:ℤ) ≤ -c),
        ← zpow_neg, neg_neg]
    have hcast : ((p * 2 ^ (-c).toNat : Nat) : ℚ) = (p : ℚ) * 2 ^ (-c).toNat := by
      push_cast
      ring
    rw [hzc, inv_eq_one_div, div_le_div_iff h2m hq0, one_mul, ← hcast]
    exact Iff.symm Nat.cast_le

theorem fracExp_spec (p q : Nat) (hp : 1 ≤ p) (hq : 1 ≤ q) :
    (2 : ℚ) ^ fracExp p q ≤ (p : ℚ) / q ∧ (p : ℚ) / q < (2 : ℚ) ^ (fracExp p q + 1) := by
  have hq0 : (0 : ℚ) < q := by exact_mod_cast hq
  obtain ⟨hpl, hpu⟩ := natLog2_spec p hp
  obtain ⟨hql, hqu⟩ := natLog2_spec q hq
  have hz : ∀ n : ℕ, ((2 ^ n : ℕ) : ℚ) = (2 : ℚ) ^ (n : ℤ) := by
    intro n
    rw [zpow_natCast]
    push_cast
    ring
  have e1 : (p : ℚ) < (2 : ℚ) ^ ((natLog2 p : ℤ) + 1) := by
    rw [show ((natLog2 p : ℤ) + 1) = ((natLog2 p + 1 : ℕ) : ℤ) by push_cast; ring, ← hz]
    exact_mod_cast hpu
  have e2 : (2 : ℚ) ^ (natLog2 q : ℤ) ≤ q := by
    rw [← hz]
    exact_mod_cast hql
  have e3 : (q : ℚ) < (2 : ℚ) ^ ((natLog2 q : ℤ) + 1) := by
    rw [show ((natLog2 q : ℤ) + 1) = ((natLog2 q + 1 : ℕ) : ℤ) by push_cast; ring, ← hz]
    exact_mod_cast hqu
  have e4 : (2 : ℚ) ^ (natLog2 p : ℤ) ≤ p := by
    rw [← hz]
    exact_mod_cast hpl
  have hB1 : (p : ℚ) / q < (2 : ℚ) ^ ((natLog2 p : ℤ) - natLog2 q + 1) := by
    rw [div_lt_iff hq0]
    calc (p : ℚ) < (2 : ℚ) ^ ((natLog2 p : ℤ) + 1) := e1
      _ = (2 : ℚ) ^ ((natLog2 p : ℤ) - natLog2 q + 1) * (2 : ℚ) ^ (natLog2 q : ℤ) := by
          rw [← zpow_add₀ (by norm_num : (2 : ℚ) ≠ 0)]
          congr 1
          ring
      _ ≤ (2 : ℚ) ^ ((natLog2 p : ℤ) - natLog2 q + 1) * q := by
          apply mul_le_mul_of_nonneg_left e2 (by positivity)
  have hB2 : (2 : ℚ) ^ ((natLog2 p : ℤ) - natLog2 q - 1) < (p : ℚ) / q := by
    rw [lt_div_iff hq0]
    calc (2 : ℚ) ^ ((natLog2 p : ℤ) - natLog2 q - 1) * q
        < (2 : ℚ) ^ ((natLog2 p : ℤ) - natLog2 q - 1) * (2 : ℚ) ^ ((natLog2 q : ℤ) + 1) := by
          apply mul_lt_mul_of_pos_left e3 (by positivity)
      _ = (2 : ℚ) ^ (natLog2 p : ℤ) := by
          rw [← zpow_add₀ (by norm_num : (2 : ℚ) ≠ 0)]
          congr 1
          ring
      _ ≤ p := e4
  simp only [fracExp]
  by_cases hle : le2pow p q ((natLog2 p : ℤ) - natLog2 q)
  · rw [if_pos hle]
    exact ⟨(le2pow_iff p q _ hq).mp hle, hB1⟩
  · rw [if_neg hle]
    have hnot := (le2pow_iff p q ((natLog2 p : ℤ) - natLog2 q) hq).not.mp hle
    constructor
    · rw [show (natLog2 p : ℤ) - natLog2 q - 1 = (natLog2 p : ℤ) - natLog2 q - 1 by ring]
      exact le_of_lt hB2
    · rw [show (natLog2 p : ℤ) - natLog2 q - 1 + 1 = (natLog2 p : ℤ) - natLog2 q by ring]
      exact not_le.mp hnot

theorem roundHalfEvenFrac_err (p q : Nat) (hq : 1 ≤ q) :
    |((roundHalfEvenFrac p q : ℕ) : ℚ) - (p : ℚ) / q| ≤ 1 / 2 := by
  have hq0 : (0 : ℚ) < q := by exact_mod_cast hq
  have hmod := Nat.div_add_mod p q
  have hmodlt : p % q < q := Nat.mod_lt p (by omega)
  have hc : (q : ℚ) * ((p / q : ℕ) : ℚ) + ((p % q : ℕ) : ℚ) = (p : ℚ) := by
    exact_mod_cast hmod
  have hpq : (p : ℚ) / q = ((p / q : ℕ) : ℚ) + ((p % q : ℕ) : ℚ) / q := by
    field_simp
    linarith
  have hR0 : (0 : ℚ) ≤ ((p % q : ℕ) : ℚ) := by positivity
  have hRq : ((p % q : ℕ) : ℚ) < q := by exact_mod_cast hmodlt
  simp only [roundHalfEvenFrac]
  split_ifs with h1 h2 h3
  · have hh : (2 : ℚ) * ((p % q : ℕ) : ℚ) < q := by exact_mod_cast h1
    rw [hpq, show ((p / q : ℕ) : ℚ) - (((p / q : ℕ) : ℚ) + ((p % q : ℕ) : ℚ) / q)
        = -(((p % q : ℕ) : ℚ) / q) by ring]
    rw [abs_neg, abs_of_nonneg (by positivity)]
    rw [div_le_div_iff hq0 (by norm_num : (0 : ℚ) < 2)]
    linarith
  · have hh : (q : ℚ) < 2 * ((p % q : ℕ) : ℚ) := by exact_mod_cast h2
    rw [hpq]
    push_cast
    rw [show ((p / q : ℕ) : ℚ) + 1 - (((p / q : ℕ) : ℚ) + ((p % q : ℕ) : ℚ) / q)
        = 1 - ((p % q : ℕ) : ℚ) / q by ring]
    rw [abs_of_nonneg (by rw [sub_nonneg, div_le_one hq0]; linarith)]
    rw [sub_le_iff_le_add]
    rw [show (1 : ℚ) / 2 + ((p % q : ℕ) : ℚ) / q = (q + 2 * ((p % q : ℕ) : ℚ)) / (2 * q) by
      field_simp; ring]
    rw [le_div_iff (by positivity)]
    linarith
  · have hh : (2 : ℚ) * ((p % q : ℕ) : ℚ) = q := by
      have : 2 * (p % q) = q := by omega
      exact_mod_cast this
    rw [hpq, show ((p / q : ℕ) : ℚ) - (((p / q : ℕ) : ℚ) + ((p % q : ℕ) : ℚ) / q)
        = -(((p % q : ℕ) : ℚ) / q) by ring]
    rw [abs_neg, abs_of_nonneg (by positivity)]
    rw [div_le_div_iff hq0 (by norm_num : (0 : ℚ) < 2)]
    linarith
  · have hh : (2 : ℚ) * ((p % q : ℕ) : ℚ) = q := by
      have : 2 * (p % q) = q := by omega
      exact_mod_cast this
    rw [hpq]
    push_cast
    rw [show ((p / q : ℕ) : ℚ) + 1 - (((p / q : ℕ) : ℚ) + ((p % q : ℕ) : ℚ) / q)
        = 1 - ((p % q : ℕ) : ℚ) / q by ring]
    rw [abs_of_nonneg (by rw [sub_nonneg, div_le_one hq0]; linarith)]
    rw [sub_le_iff_le_add]
    rw [show (1 : ℚ) / 2 + ((p % q : ℕ) : ℚ) / q = (q + 2 * ((p % q : ℕ) : ℚ)) / (2 * q) by
      field_simp; ring]
    rw [le_div_iff (by positivity)]
    linarith

theorem froundFrac_err (p q : Nat) (hp : 1 ≤ p) (hq : 1 ≤ q) :
    |(froundFrac p q).toQ - (p : ℚ) / q| ≤ ((p : ℚ) / q) / 2 ^ 53 := by
  have hq0 : (0 : ℚ) < q := by exact_mod_cast hq
  have hp0 : (0 : ℚ) < p := by exact_mod_cast hp
  obtain ⟨hkl, hku⟩ := fracExp_spec p q hp hq
  have hrw : froundFrac p q = ⟨if 0 ≤ fracExp p q - 52 then
        roundHalfEvenFrac p (q * 2 ^ (fracExp p q - 52).toNat)
      else roundHalfEvenFrac (p * 2 ^ (-(fracExp p q - 52)).toNat) q,
      fracExp p q - 52⟩ := by
    simp only [froundFrac]
    rw [if_neg (by omega : ¬ p = 0)]
  have hfin : ∀ m : ℕ, |(m : ℚ) - ((p : ℚ) / q) * (2 : ℚ) ^ (-(fracExp p q - 52))| ≤ 1 / 2 →
      |(m : ℚ) * (2 : ℚ) ^ (fracExp p q - 52) - (p : ℚ) / q| ≤ ((p : ℚ) / q) / 2 ^ 53 := by
    intro m herr
    have hzpos : (0 : ℚ) < (2 : ℚ) ^ (fracExp p q - 52) := by positivity
    have hstep : (m : ℚ) * (2 : ℚ) ^ (fracExp p q - 52) - (p : ℚ) / q
        = ((m : ℚ) - ((p : ℚ) / q) * (2 : ℚ) ^ (-(fracExp p q - 52)))
          * (2 : ℚ) ^ (fracExp p q - 52) := by
      rw [sub_mul, mul_assoc, ← zpow_add₀ (by norm_num : (2 : ℚ) ≠ 0)]
      norm_num
    rw [hstep, abs_mul, abs_of_pos hzpos]
    calc |(m : ℚ) - ((p : ℚ) / q) * (2 : ℚ) ^ (-(fracExp p q - 52))|
          * (2 : ℚ) ^ (fracExp p q - 52)
        ≤ (1 / 2) * (2 : ℚ) ^ (fracExp p q - 52) :=
          mul_le_mul_of_nonneg_right herr (le_of_lt hzpos)
      _ = (2 : ℚ) ^ (fracExp p q - 53) := by
          rw [show fracExp p q - 53 = fracExp p q - 52 + (-1) by ring,
            zpow_add₀ (by norm_num : (2 : ℚ) ≠ 0)]
          norm_num
          ring
      _ ≤ ((p : ℚ) / q) / 2 ^ 53 := by
          rw [show fracExp p q - 53 = fracExp p q + (-53) by ring,
            zpow_add₀ (by norm_num : (2 : ℚ) ≠ 0)]
          rw [div_eq_mul_inv ((p : ℚ) / q),
            show ((2 : ℚ) ^ (53 : ℕ))⁻¹ = (2 : ℚ) ^ (-(53 : ℤ)) by
              rw [zpow_neg]
              congr 1
              rw [← zpow_natCast (2 : ℚ) 53]
              norm_num]
          exact mul_le_mul_of_nonneg_right hkl (by positivity)
  rw [hrw]
  by_cases hsn : 0 ≤ fracExp p q - 52
  · rw [if_pos hsn]
    have hq2 : 1 ≤ q * 2 ^ (fracExp p q - 52).toNat := Nat.one_le_iff_ne_zero.mpr (by positivity)
    have herr := roundHalfEvenFrac_err p (q * 2 ^ (fracExp p q - 52).toNat) hq2
    have hval : (p : ℚ) / ((q * 2 ^ (fracExp p q - 52).toNat : ℕ) : ℚ)
        = ((p : ℚ) / q) * (2 : ℚ) ^ (-(fracExp p q - 52)) := by
      have hA : (2 : ℚ) ^ (-(fracExp p q - 52)) = ((2 : ℚ) ^ (fracExp p q - 52).toNat)⁻¹ := by
        rw [zpow_neg]
        congr 1
        rw [← zpow_natCast (2 : ℚ) (fracExp p q - 52).toNat, Int.toNat_of_nonneg hsn]
      rw [hA, ← div_eq_mul_inv, div_div]
      push_cast
      ring
    rw [hval] at herr
    exact hfin _ herr
  · rw [if_neg hsn]
    have hp2 : 1 ≤ p * 2 ^ (-(fracExp p q - 52)).toNat :=
      Nat.one_le_iff_ne_zero.mpr (by positivity)
    have herr := roundHalfEvenFrac_err (p * 2 ^ (-(fracExp p q - 52)).toNat) q hq
    have hval : ((p * 2 ^ (-(fracExp p q - 52)).toNat : ℕ) : ℚ) / q
        = ((p : ℚ) / q) * (2 : ℚ) ^ (-(fracExp p q - 52)) := by
      push_cast
      rw [← zpow_natCast (2 : ℚ) (-(fracExp p q - 52)).toNat,
        Int.toNat_of_nonneg (by omega : (0 : ℤ) ≤ -(fracExp p q - 52))]
      ring
    rw [hval] at herr
    exact hfin _ herr

theorem froundFrac_toQ_pos (p q : Nat) (hp : 1 ≤ p) (hq : 1 ≤ q) :
    0 < (froundFrac p q).toQ := by
  have h := abs_le.mp (froundFrac_err p q hp hq)
  have hv : (0 : ℚ) < (p : ℚ) / q := by
    have hq0 : (0 : ℚ) < q := by exact_mod_cast hq
    have hp0 : (0 : ℚ) < p := by exact_mod_cast hp
    positivity
  have hlt : ((p : ℚ) / q) / 2 ^ 53 < (p : ℚ) / q := by
    apply div_lt_self hv
    norm_num
  linarith [h.1]

theorem froundFrac_m_pos (p q : Nat) (hp : 1 ≤ p) (hq : 1 ≤ q) :
    1 ≤ (froundFrac p q).m := by
  by_contra hm
  have hm0 : (froundFrac p q).m = 0 := by omega
  have hpos := froundFrac_toQ_pos p q hp hq
  rw [Dy.toQ, hm0] at hpos
  simp at hpos

theorem fmulND_err (w : Nat) (d : Dy) (hw : 1 ≤ w) (hm : 1 ≤ d.m) :
    |(fmulND w d).toQ - (w : ℚ) * d.toQ| ≤ ((w : ℚ) * d.toQ) / 2 ^ 53 := by
  unfold fmulND
  by_cases he : 0 ≤ d.e
  · rw [if_pos he]
    have h1 : 1 ≤ w * d.m * 2 ^ d.e.toNat := Nat.one_le_iff_ne_zero.mpr (by positivity)
    have herr := froundFrac_err (w * d.m * 2 ^ d.e.toNat) 1 h1 le_rfl
    have hval : ((w * d.m * 2 ^ d.e.toNat : ℕ) : ℚ) / ((1 : ℕ) : ℚ) = (w : ℚ) * d.toQ := by
      rw [Dy.toQ]
      push_cast
      rw [div_one, ← zpow_natCast (2 : ℚ) d.e.toNat, Int.toNat_of_nonneg he]
      ring
    rw [hval] at herr
    exact herr
  · rw [if_neg he]
    have h1 : 1 ≤ w * d.m := Nat.one_le_iff_ne_zero.mpr (by positivity)
    have h2 : 1 ≤ 2 ^ (-d.e).toNat := Nat.one_le_two_pow
    have herr := froundFrac_err (w * d.m) (2 ^ (-d.e).toNat) h1 h2
    have hval : ((w * d.m : ℕ) : ℚ) / ((2 ^ (-d.e).toNat : ℕ) : ℚ) = (w : ℚ) * d.toQ := by
      rw [Dy.toQ]
      have hA : (2 : ℚ) ^ d.e = ((2 : ℚ) ^ (-d.e).toNat)⁻¹ := by
        rw [← zpow_natCast (2 : ℚ) (-d.e).toNat, Int.toNat_of_nonneg (by omega : (0 : ℤ) ≤ -d.e),
          ← zpow_neg, neg_neg]
      rw [hA]
      push_cast
      rw [div_eq_mul_inv]
      ring
    rw [hval] at herr
    exact herr

theorem dyFloor_bounds (d : Dy) :
    (dyFloor d : ℚ) ≤ d.toQ ∧ d.toQ < dyFloor d + 1 := by
  unfold dyFloor
  rw [Dy.toQ]
  by_cases he : 0 ≤ d.e
  · rw [if_pos he]
    have heq : ((d.m * 2 ^ d.e.toNat : ℕ) : ℚ) = (d.m : ℚ) * (2 : ℚ) ^ d.e := by
      push_cast
      rw [← zpow_natCast (2 : ℚ) d.e.toNat, Int.toNat_of_nonneg he]
    rw [heq]
    exact ⟨le_refl _, by linarith⟩
  · rw [if_neg he]
    have hA : (2 : ℚ) ^ d.e = ((2 : ℚ) ^ (-d.e).toNat)⁻¹ := by
      rw [← zpow_natCast (2 : ℚ) (-d.e).toNat, Int.toNat_of_nonneg (by omega : (0 : ℤ) ≤ -d.e),
        ← zpow_neg, neg_neg]
    have hpow : (0 : ℚ) < (2 : ℚ) ^ (-d.e).toNat := by positivity
    have hmod := Nat.div_add_mod d.m (2 ^ (-d.e).toNat)
    have hmodlt : d.m % 2 ^ (-d.e).toNat < 2 ^ (-d.e).toNat :=
      Nat.mod_lt _ (by positivity)
    have hc : ((2 ^ (-d.e).toNat : ℕ) : ℚ) * ((d.m / 2 ^ (-d.e).toNat : ℕ) : ℚ)
        + ((d.m % 2 ^ (-d.e).toNat : ℕ) : ℚ) = (d.m : ℚ) := by
      exact_mod_cast hmod
    have hcpow : ((2 ^ (-d.e).toNat : ℕ) : ℚ) = (2 : ℚ) ^ (-d.e).toNat := by
      push_cast
      ring
    rw [hcpow] at hc
    have hR0 : (0 : ℚ) ≤ ((d.m % 2 ^ (-d.e).toNat : ℕ) : ℚ) := by positivity
    have hRlt : ((d.m % 2 ^ (-d.e).toNat : ℕ) : ℚ) < (2 : ℚ) ^ (-d.e).toNat := by
      rw [← hcpow]
      exact_mod_cast hmodlt
    rw [hA]
    constructor
    · rw [← div_eq_mul_inv, le_div_iff hpow]
      nlinarith [hc, hR0]
    · rw [← div_eq_mul_inv, div_lt_iff hpow]
      nlinarith [hc, hRlt]

theorem shrunkReduction_lt (est F : Nat) (h : 1500 < est) (hle : 45000 < est * (F + 1)) :
    shrunkReduction 30 est < F + 1 := by
  have hq1 : 1 ≤ est := by omega
  have hq0 : (0 : ℚ) < est := by exact_mod_cast hq1
  have hd1m : 1 ≤ (froundFrac 1500 est).m := froundFrac_m_pos 1500 est (by norm_num) hq1
  have herr1 := froundFrac_err 1500 est (by norm_num) hq1
  have herr2 := fmulND_err 30 (froundFrac 1500 est) (by norm_num) hd1m
  obtain ⟨hfl1, hfl2⟩ := dyFloor_bounds (fmulND 30 (froundFrac 1500 est))
  obtain ⟨h1l, h1u⟩ := abs_le.mp herr1
  obtain ⟨h2l, h2u⟩ := abs_le.mp herr2
  push_cast at h2l h2u
  have hx1u : (froundFrac 1500 est).toQ * est ≤ 1500 + 1500 / 2 ^ 53 := by
    have hh : (froundFrac 1500 est).toQ ≤ 1500 / (est : ℚ) + (1500 / (est : ℚ)) / 2 ^ 53 := by
      push_cast at h1u
      linarith
    calc (froundFrac 1500 est).toQ * est
        ≤ (1500 / (est : ℚ) + (1500 / (est : ℚ)) / 2 ^ 53) * est :=
          mul_le_mul_of_nonneg_right hh (le_of_lt hq0)
      _ = 1500 + 1500 / 2 ^ 53 := by field_simp; ring
  have hx2u : (fmulND 30 (froundFrac 1500 est)).toQ * est
      ≤ 30 * ((froundFrac 1500 est).toQ * est)
        + (30 / 2 ^ 53) * ((froundFrac 1500 est).toQ * est) := by
    have hh : (fmulND 30 (froundFrac 1500 est)).toQ
        ≤ 30 * (froundFrac 1500 est).toQ + 30 * (froundFrac 1500 est).toQ / 2 ^ 53 := by
      linarith
    calc (fmulND 30 (froundFrac 1500 est)).toQ * est
        ≤ (30 * (froundFrac 1500 est).toQ + 30 * (froundFrac 1500 est).toQ / 2 ^ 53) * est :=
          mul_le_mul_of_nonneg_right hh (le_of_lt hq0)
      _ = _ := by ring
  have hU : (fmulND 30 (froundFrac 1500 est)).toQ * est < 45001 := by
    linarith
  have hle2 : (45001 : ℚ) ≤ (est : ℚ) * ((F : ℚ) + 1) := by
    have hn : 45001 ≤ est * (F + 1) := by omega
    exact_mod_cast hn
  have hx2lt : (fmulND 30 (froundFrac 1500 est)).toQ < (F : ℚ) + 1 := by
    have h1 : (fmulND 30 (froundFrac 1500 est)).toQ * est < ((F : ℚ) + 1) * est := by
      calc (fmulND 30 (froundFrac 1500 est)).toQ * est < 45001 := hU
        _ ≤ (est : ℚ) * ((F : ℚ) + 1) := hle2
        _ = ((F : ℚ) + 1) * est := by ring
    exact lt_of_mul_lt_mul_right h1 (le_of_lt hq0)
  have hfl : (dyFloor (fmulND 30 (froundFrac 1500 est)) : ℚ) < (F : ℚ) + 1 := by
    linarith
  have : dyFloor (fmulND 30 (froundFrac 1500 est)) < F + 1 := by exact_mod_cast hfl
  exact this

theorem shrunkReduction_ge (est F : Nat) (h : 1500 < est) (hge : est * F < 45000) :
    F ≤ shrunkReduction 30 est := by
  have hq1 : 1 ≤ est := by omega
  have hq0 : (0 : ℚ) < est := by exact_mod_cast hq1
  have hd1m : 1 ≤ (froundFrac 1500 est).m := froundFrac_m_pos 1500 est (by norm_num) hq1
  have herr1 := froundFrac_err 1500 est (by norm_num) hq1
  have herr2 := fmulND_err 30 (froundFrac 1500 est) (by norm_num) hd1m
  obtain ⟨hfl1, hfl2⟩ := dyFloor_bounds (fmulND 30 (froundFrac 1500 est))
  obtain ⟨h1l, h1u⟩ := abs_le.mp herr1
  obtain ⟨h2l, h2u⟩ := abs_le.mp herr2
  push_cast at h1l h1u h2l h2u
  have hx1u : (froundFrac 1500 est).toQ * est ≤ 1500 + 1500 / 2 ^ 53 := by
    have hh : (froundFrac 1500 est).toQ ≤ 1500 / (est : ℚ) + (1500 / (est : ℚ)) / 2 ^ 53 := by
      linarith
    calc (froundFrac 1500 est).toQ * est
        ≤ (1500 / (est : ℚ) + (1500 / (est : ℚ)) / 2 ^ 53) * est :=
          mul_le_mul_of_nonneg_right hh (le_of_lt hq0)
      _ = 1500 + 1500 / 2 ^ 53 := by field_simp; ring
  have hx1l : 1500 - 1500 / 2 ^ 53 ≤ (froundFrac 1500 est).toQ * est := by
    have hh : 1500 / (est : ℚ) - (1500 / (est : ℚ)) / 2 ^ 53 ≤ (froundFrac 1500 est).toQ := by
      linarith
    calc (1500 : ℚ) - 1500 / 2 ^ 53
        = (1500 / (est : ℚ) - (1500 / (est : ℚ)) / 2 ^ 53) * est := by field_simp; ring
      _ ≤ (froundFrac 1500 est).toQ * est :=
          mul_le_mul_of_nonneg_right hh (le_of_lt hq0)
  have hx2l : 30 * ((froundFrac 1500 est).toQ * est)
        - (30 / 2 ^ 53) * ((froundFrac 1500 est).toQ * est)
      ≤ (fmulND 30 (froundFrac 1500 est)).toQ * est := by
    have hh : 30 * (froundFrac 1500 est).toQ - 30 * (froundFrac 1500 est).toQ / 2 ^ 53
        ≤ (fmulND 30 (froundFrac 1500 est)).toQ := by
      linarith
    calc 30 * ((froundFrac 1500 est).toQ * est)
          - (30 / 2 ^ 53) * ((froundFrac 1500 est).toQ * est)
        = (30 * (froundFrac 1500 est).toQ - 30 * (froundFrac 1500 est).toQ / 2 ^ 53) * est := by
          ring
      _ ≤ (fmulND 30 (froundFrac 1500 est)).toQ * est :=
          mul_le_mul_of_nonneg_right hh (le_of_lt hq0)
  have hL : (44999 : ℚ) < (fmulND 30 (froundFrac 1500 est)).toQ * est := by
    linarith
  have hge2 : (est : ℚ) * (F : ℚ) ≤ 44999 := by
    have hn : est * F ≤ 44999 := by omega
    exact_mod_cast hn
  have hx2gt : (F : ℚ) < (fmulND 30 (froundFrac 1500 est)).toQ := by
    have h1 : (F : ℚ) * est < (fmulND 30 (froundFrac 1500 est)).toQ * est := by
      calc (F : ℚ) * est = (est : ℚ) * F := by ring
        _ ≤ 44999 := hge2
        _ < (fmulND 30 (froundFrac 1500 est)).toQ * est := hL
    exact lt_of_mul_lt_mul_right h1 (le_of_lt hq0)
  have hfl : (F : ℚ) < (dyFloor (fmulND 30 (froundFrac 1500 est)) : ℚ) + 1 := by
    linarith
  have : F < dyFloor (fmulND 30 (froundFrac 1500 est)) + 1 := by exact_mod_cast hfl
  show F ≤ dyFloor (fmulND 30 (froundFrac 1500 est))
  omega

/-- The shrink computation `int(float64(30) * (1500.0 / est))` agrees with the
exact `floor(45000 / est)` for every estimate above the ceiling: the two
roundings never push the product across an integer boundary. -/
theorem shrunkReduction_eq (est : Nat) (h : 1500 < est) :
    shrunkReduction 30 est = 45000 / est := by
  have hFr : est * (45000 / est) + 45000 % est = 45000 := Nat.div_add_mod 45000 est
  have hrlt : 45000 % est < est := Nat.mod_lt _ (by omega)
  have hlt := shrunkReduction_lt est (45000 / est) h (by
    have hexp : est * (45000 / est + 1) = est * (45000 / est) + est := by ring
    omega)
  by_cases hr0 : 45000 % est = 0
  · -- est divides 45000: finitely many cases, settled by evaluation
    have hprod : est * (45000 / est) = 45000 := by omega
    have hFle : 45000 / est ≤ 29 := by
      by_contra hgt
      push_neg at hgt
      have h30 : est * 30 ≤ est * (45000 / est) := Nat.mul_le_mul_left est (by omega)
      have : est * 30 ≥ 1501 * 30 := Nat.mul_le_mul_right 30 (by omega)
      omega
    have hF1 : 1 ≤ 45000 / est := by
      by_contra hlt1
      have hz : 45000 / est = 0 := by omega
      rw [hz, Nat.mul_zero] at hprod
      omega
    obtain ⟨F, hFdef⟩ : ∃ F, 45000 / est = F := ⟨_, rfl⟩
    rw [hFdef] at hprod hFle hF1 hlt ⊢
    interval_cases F
    · have he : est = 45000 := by omega
      subst he; decide
    · have he : est = 22500 := by omega
      subst he; decide
    · have he : est = 15000 := by omega
      subst he; decide
    · have he : est = 11250 := by omega
      subst he; decide
    · have he : est = 9000 := by omega
      subst he; decide
    · have he : est = 7500 := by omega
      subst he; decide
    · omega
    · have he : est = 5625 := by omega
      subst he; decide
    · have he : est = 5000 := by omega
      subst he; decide
    · have he : est = 4500 := by omega
      subst he; decide
    · omega
    · have he : est = 3750 := by omega
      subst he; decide
    · omega
    · omega
    · have he : est = 3000 := by omega
      subst he; decide
    · omega
    · omega
    · have he : est = 2500 := by omega
      subst he; decide
    · omega
    · have he : est = 2250 := by omega
      subst he; decide
    · omega
    · omega
    · omega
    · have he : est = 1875 := by omega
      subst he; decide
    · have he : est = 1800 := by omega
      subst he; decide
    · omega
    · omega
    · omega
    · omega
  · -- est does not divide 45000: the two roundings stay strictly inside
    have hge := shrunkReduction_ge est (45000 / est) h (by omega)
    omega

/-- C4: for every 30-line window whose token estimate exceeds the ceiling,
the shrunk window size is exactly `floor(30 * 1500 / estimate)`, raised to 1
when that floor is 0. -/
theorem shrunk_window_size_eq_floor (w : List (List Char)) (n i : Nat)
    (hw : w.length = 30) (hin : i + 30 ≤ n)
    (hover : maxTokensPerChunk < estimateTokens (joinNL w)) :
    shrunkEnd n i w.length (estimateTokens (joinNL w)) - i
      = max 1 (45000 / estimateTokens (joinNL w)) := by
  rw [hw]
  have h1500 : 1500 < estimateTokens (joinNL w) := hover
  have hred := shrunkReduction_eq (estimateTokens (joinNL w)) h1500
  have hF29 : 45000 / estimateTokens (joinNL w) ≤ 29 := by
    have hmono : 45000 / estimateTokens (joinNL w) ≤ 45000 / 1501 :=
      Nat.div_le_div_left (by omega) (by omega)
    have : (45000 : Nat) / 1501 = 29 := by norm_num
    omega
  simp only [shrunkEnd]
  rw [hred]
  by_cases hF0 : 45000 / estimateTokens (joinNL w) = 0
  · rw [hF0]
    rw [if_pos (by omega : i + 0 ≤ i)]
    rw [if_neg (by omega : ¬ n < i + 1)]
    omega
  · rw [if_neg (by omega : ¬ i + 45000 / estimateTokens (joinNL w) ≤ i)]
    rw [if_neg (by omega : ¬ n < i + 45000 / estimateTokens (joinNL w))]
    omega

theorem joinNL_replicate_length (l : List Char) : ∀ k : Nat,
    (joinNL (List.replicate (k + 1) l)).length = (k + 1) * l.length + k := by
  intro k
  induction k with
  | zero => simp [joinNL]
  | succ m ih =>
    rw [List.replicate_succ]
    obtain ⟨y, ys, hy⟩ : ∃ y ys, List.replicate (m + 1) l = y :: ys :=
      ⟨l, List.replicate m l, List.replicate_succ _ _⟩
    rw [hy]
    show (l ++ '\n' :: joinNL (y :: ys)).length = _
    rw [List.length_append, List.length_cons, ← hy, ih]
    ring

/-- Witness for C4: thirty 300-character lines give estimate 2257 and a
shrunk size of 19. -/
theorem shrunk_window_size_eq_floor_witness :
    shrunkEnd 30 0 (List.replicate 30 (List.replicate 300 'a')).length
        (estimateTokens (joinNL (List.replicate 30 (List.replicate 300 'a')))) - 0
      = max 1 (45000 / estimateTokens (joinNL (List.replicate 30 (List.replicate 300 'a')))) := by
  have hlen := joinNL_replicate_length (List.replicate 300 'a') 29
  rw [List.length_replicate] at hlen
  norm_num at hlen
  apply shrunk_window_size_eq_floor
  · rw [List.length_replicate]
  · omega
  · show 1500 < estimateTokens (joinNL (List.replicate 30 (List.replicate 300 'a')))
    show 1500 < (joinNL (List.replicate 30 (List.replicate 300 'a'))).length / 4
    rw [hlen]
    norm_num

end LogAnalyzer
